import Mathlib

/-!
Verification of elitez-project: `runSimulation` and `main` (src/main.cpp).

A shallow embedding of the one exported function of the module and of its
entry point, followed by the properties of the specification.

* Memory is modelled by value: a `const char*` is the list of bytes that
  can be read starting at the pointer.  Reading a C string from memory
  that holds no NUL byte runs off the end of the memory (undefined
  behaviour in C++); the model returns `none` there.
* The module state is the content of the function-local
  `static std::string result`.
* The value returned by `runSimulation` is `result.c_str()`; the model
  returns the bytes readable at that pointer when the call returns: the
  content of `result` followed by the terminating NUL.
* Allocation by `std::string` is taken to succeed: lists are unbounded.
-/

namespace Elitez

/-- One `char` of the C++ program, as an unsigned 8-bit value. -/
abbrev Byte := UInt8

/-- UTF-8 bytes of a text: the bytes a string literal of the (UTF-8
encoded) source file stands for. -/
def utf8 (s : String) : List Byte := s.toUTF8.data.toList

/-- The C function `strlen`: the number of bytes before the first NUL byte of the memory
at a pointer; `none` when the memory holds no NUL byte. -/
def strlen : List Byte → Option Nat
  | [] => none
  | b :: bs => if b = 0 then some 0 else (strlen bs).map (· + 1)

/-- Reading the NUL-terminated string at a pointer: the `strlen` bytes
before the first NUL.  This is what `std::string(const char*)` copies, and
what a host reads from a returned `const char*`. -/
def readCString (mem : List Byte) : Option (List Byte) :=
  match strlen mem with
  | none => none
  | some n => some (mem.take n)

/-- The bytes readable at `s.c_str()`: the content of the `std::string`
followed by its terminating NUL. -/
def c_str (s : List Byte) : List Byte := s ++ [0]

/-- Bytes of the literal `"Malware '"` in src/main.cpp (line 8), without
the terminating NUL. -/
def prefixBytes : List Byte := [0x4d, 0x61, 0x6c, 0x77, 0x61, 0x72, 0x65, 0x20, 0x27]

/-- Bytes of the literal `"' bol úspešne nasadený!"` in src/main.cpp
(line 8), without the terminating NUL. -/
def suffixBytes : List Byte :=
  [0x27, 0x20, 0x62, 0x6f, 0x6c, 0x20, 0xc3, 0xba, 0x73, 0x70, 0x65, 0xc5, 0xa1, 0x6e, 0x65,
   0x20, 0x6e, 0x61, 0x73, 0x61, 0x64, 0x65, 0x6e, 0xc3, 0xbd, 0x21]

/-- The state of the module: the content of `static std::string result`. -/
structure Module where
  result : List Byte
  deriving DecidableEq, Repr

/-- The state at module load: `result` is default-constructed, hence empty. -/
def Module.init : Module := ⟨[]⟩

/-- The exported function `const char* runSimulation(const char* name)`:
`result = "Malware '" + std::string(name) + "' bol úspešne nasadený!";`
`return result.c_str();` -/
def runSimulation (name : List Byte) (m : Module) : Option (List Byte × Module) :=
  match readCString name with
  | none => none
  | some n =>
    let result := prefixBytes ++ n ++ suffixBytes
    some (c_str result, { m with result := result })

/-- The entry point `int main() { return 0; }`, as a step on the module state. -/
def main (m : Module) : Int × Module := (0, m)

/-- A sequence of calls of `runSimulation`, one per input, each on the
state left by the one before; the returned pointers are dropped. -/
def runCalls : List (List Byte) → Module → Option Module
  | [], m => some m
  | name :: rest, m =>
    match runSimulation name m with
    | none => none
    | some (_, m') => runCalls rest m'

/-- Stripping the fixed 9-byte prefix and 26-byte suffix from a message. -/
def stripAffixes (msg : List Byte) : List Byte :=
  (msg.drop 9).take (msg.length - 35)

/-! Reading C strings -/

theorem strlen_append_nul (p t : List Byte) :
    strlen (p ++ 0 :: t) = some (p.takeWhile (· != 0)).length := by
  induction p with
  | nil => simp [strlen]
  | cons b bs ih =>
    by_cases hb : b = 0
    · subst hb
      simp [strlen]
    · simp [strlen, hb, ih, List.takeWhile_cons]

theorem take_length_takeWhile (p t : List Byte) :
    (p ++ 0 :: t).take (p.takeWhile (· != 0)).length = p.takeWhile (· != 0) := by
  induction p with
  | nil => simp
  | cons b bs ih =>
    by_cases hb : b = 0
    · subst hb
      simp
    · simp [List.takeWhile_cons, hb, ih]

theorem readCString_append_nul (p t : List Byte) :
    readCString (p ++ 0 :: t) = some (p.takeWhile (· != 0)) := by
  simp only [readCString, strlen_append_nul, take_length_takeWhile]

theorem takeWhile_nulfree (p : List Byte) (h : ∀ b ∈ p, b ≠ 0) :
    p.takeWhile (· != 0) = p := by
  rw [List.takeWhile_eq_self_iff]
  intro b hb
  simpa using h b hb

theorem readCString_nulfree (p t : List Byte) (h : ∀ b ∈ p, b ≠ 0) :
    readCString (p ++ 0 :: t) = some p := by
  rw [readCString_append_nul, takeWhile_nulfree p h]

theorem runSimulation_append_nul (p t : List Byte) (m : Module) :
    runSimulation (p ++ 0 :: t) m
      = some (c_str (prefixBytes ++ p.takeWhile (· != 0) ++ suffixBytes),
              ⟨prefixBytes ++ p.takeWhile (· != 0) ++ suffixBytes⟩) := by
  simp only [runSimulation, readCString_append_nul]

theorem runSimulation_nulfree (p t : List Byte) (m : Module) (h : ∀ b ∈ p, b ≠ 0) :
    runSimulation (p ++ 0 :: t) m
      = some (c_str (prefixBytes ++ p ++ suffixBytes), ⟨prefixBytes ++ p ++ suffixBytes⟩) := by
  rw [runSimulation_append_nul, takeWhile_nulfree p h]

theorem prefixBytes_eq_utf8 : prefixBytes = utf8 "Malware '" := by decide

theorem suffixBytes_eq_utf8 : suffixBytes = utf8 "' bol úspešne nasadený!" := by decide

theorem message_nulfree (p : List Byte) (h : ∀ b ∈ p, b ≠ 0) :
    ∀ b ∈ prefixBytes ++ p ++ suffixBytes, b ≠ 0 := by
  intro b hb
  simp only [List.mem_append] at hb
  rcases hb with (hb | hb) | hb
  · exact (by decide : ∀ b ∈ prefixBytes, b ≠ 0) b hb
  · exact h b hb
  · exact (by decide : ∀ b ∈ suffixBytes, b ≠ 0) b hb

theorem readCString_c_str (s : List Byte) (h : ∀ b ∈ s, b ≠ 0) :
    readCString (c_str s) = some s := by
  simpa [c_str] using readCString_nulfree s [] h

theorem runCalls_append (xs ys : List (List Byte)) (m : Module) :
    runCalls (xs ++ ys) m = (runCalls xs m).bind (runCalls ys) := by
  induction xs generalizing m with
  | nil => simp [runCalls]
  | cons x xs ih =>
    simp only [List.cons_append, runCalls]
    cases runSimulation x m with
    | none => simp
    | some r => simp [ih]

theorem runCalls_terminated (ss : List (List Byte)) (m : Module) :
    ∃ m', runCalls (ss.map (· ++ [0])) m = some m' := by
  induction ss generalizing m with
  | nil => exact ⟨m, rfl⟩
  | cons x xs ih =>
    simp only [List.map_cons, runCalls, runSimulation_append_nul x [] m]
    exact ih _

theorem stripAffixes_message (a : List Byte) :
    stripAffixes (prefixBytes ++ a ++ suffixBytes) = a := by
  have h9 : prefixBytes.length = 9 := by decide
  have h26 : suffixBytes.length = 26 := by decide
  have hd : (prefixBytes ++ a ++ suffixBytes).drop 9 = a ++ suffixBytes := by
    rw [List.append_assoc, ← h9, List.drop_left]
  have hl : (prefixBytes ++ a ++ suffixBytes).length - 35 = a.length := by
    simp only [List.length_append, h9, h26]
    omega
  rw [stripAffixes, hd, hl, List.take_left]

/-! Texts and their UTF-8 bytes -/

theorem bitvec_or_ne_zero (k : BitVec 8) (hk : k.getLsbD 7 = true) (x : BitVec 8) :
    x ||| k ≠ 0 := by
  intro h
  have h7 := congrArg (fun y => y.getLsbD 7) h
  simp [hk] at h7

theorem byte_or_ne_zero (k : Byte) (hk : k.toBitVec.getLsbD 7 = true) (x : Byte) :
    x ||| k ≠ 0 := by
  intro h
  have h2 : (x ||| k).toBitVec = (0 : Byte).toBitVec := by rw [h]
  exact bitvec_or_ne_zero k.toBitVec hk x.toBitVec h2

theorem ascii_byte_ne_zero (c : Char) (hc : c ≠ Char.ofNat 0) (h1 : c.val ≤ 0x7f) :
    c.val.toUInt8 ≠ 0 := by
  intro h0
  apply hc
  have h2 : (c.val.toUInt8).toNat = (0 : Byte).toNat := by rw [h0]
  have h3 : c.val.toNat ≤ 127 := h1
  have h4 : c.val.toNat % 256 = 0 := h2
  have h5 : c.val.toNat = 0 := by omega
  apply Char.ext
  apply UInt32.ext
  rw [h5]
  rfl

theorem utf8EncodeChar_nulfree (c : Char) (hc : c ≠ Char.ofNat 0) :
    ∀ b ∈ String.utf8EncodeChar c, b ≠ 0 := by
  unfold String.utf8EncodeChar
  simp only
  split_ifs with h1 h2 h3
  · intro b hb
    simp only [List.mem_singleton] at hb
    subst hb
    exact ascii_byte_ne_zero c hc h1
  all_goals
    simp only [List.mem_cons, List.mem_singleton, List.not_mem_nil, or_false, forall_eq_or_imp,
      forall_eq]
    and_intros <;> exact byte_or_ne_zero _ (by decide) _

theorem utf8_nulfree (s : String) (h : ∀ c ∈ s.data, c ≠ Char.ofNat 0) :
    ∀ b ∈ utf8 s, b ≠ 0 := by
  intro b hb
  simp only [utf8, String.toUTF8, List.mem_flatMap] at hb
  obtain ⟨c, hc, hbc⟩ := hb
  exact utf8EncodeChar_nulfree c (h c hc) b hbc

theorem utf8_append (a b : String) : utf8 (a ++ b) = utf8 a ++ utf8 b := by
  simp [utf8, String.toUTF8, List.flatMap_append]

/-- The first property at the level of texts: for every text `s` without the
character NUL, the content returned on the UTF-8 bytes of `s` is the UTF-8
encoding of the text "Malware '" ++ s ++ "' bol úspešne nasadený!". -/
theorem runSimulation_text (s : String) (t : List Byte) (m : Module)
    (h : ∀ c ∈ s.data, c ≠ Char.ofNat 0) :
    (runSimulation (utf8 s ++ 0 :: t) m).bind (fun r => readCString r.1)
      = some (utf8 ("Malware '" ++ s ++ "' bol úspešne nasadený!")) := by
  have hs := utf8_nulfree s h
  rw [runSimulation_nulfree _ t m hs, Option.some_bind,
    readCString_c_str _ (message_nulfree _ hs), utf8_append, utf8_append,
    prefixBytes_eq_utf8, suffixBytes_eq_utf8]

/-! The properties of the specification -/

/-- C1: for every NUL-free input string `s` (whatever follows its terminator
in memory, whatever the buffer held before), `runSimulation` returns, and the
content read at the returned pointer is exactly the concatenation
"Malware '" ++ s ++ "' bol úspešne nasadený!". -/
theorem runSimulation_content (s t : List Byte) (m : Module) (h : ∀ b ∈ s, b ≠ 0) :
    (runSimulation (s ++ 0 :: t) m).bind (fun r => readCString r.1)
      = some (utf8 "Malware '" ++ s ++ utf8 "' bol úspešne nasadený!") := by
  rw [runSimulation_nulfree s t m h, Option.some_bind,
    readCString_c_str _ (message_nulfree s h), prefixBytes_eq_utf8, suffixBytes_eq_utf8]

theorem runSimulation_content_witness :
    (∀ b ∈ [0x65, 0x6c, 0x69, 0x74, 0x65, 0x7a], b ≠ (0 : Byte)) ∧
    (runSimulation ([0x65, 0x6c, 0x69, 0x74, 0x65, 0x7a] ++ 0 :: []) Module.init).bind
        (fun r => readCString r.1)
      = some (utf8 "Malware '" ++ [0x65, 0x6c, 0x69, 0x74, 0x65, 0x7a]
          ++ utf8 "' bol úspešne nasadený!") :=
  ⟨by decide, runSimulation_content [0x65, 0x6c, 0x69, 0x74, 0x65, 0x7a] [] Module.init
    (by decide)⟩

/-- C2: on the empty input the content returned is "Malware '' bol úspešne
nasadený!", and on the input "X" it is "Malware 'X' bol úspešne nasadený!",
whatever the buffer held before. -/
theorem runSimulation_examples (m : Module) :
    (runSimulation (utf8 "" ++ [0]) m).bind (fun r => readCString r.1)
        = some (utf8 "Malware '' bol úspešne nasadený!") ∧
    (runSimulation (utf8 "X" ++ [0]) m).bind (fun r => readCString r.1)
        = some (utf8 "Malware 'X' bol úspešne nasadený!") := by
  constructor
  · rw [show utf8 "" ++ [0] = ([] : List Byte) ++ 0 :: [] by decide,
      runSimulation_nulfree [] [] m (by decide), Option.some_bind,
      readCString_c_str _ (message_nulfree [] (by decide))]
    decide
  · rw [show utf8 "X" ++ [0] = ([0x58] : List Byte) ++ 0 :: [] by decide,
      runSimulation_nulfree [0x58] [] m (by decide), Option.some_bind,
      readCString_c_str _ (message_nulfree [0x58] (by decide))]
    decide

/-- C3: idempotence of content. For every input memory holding a NUL byte and
every prior state of the buffer, two calls in sequence on the same input both
return, with the same bytes at the returned pointer, hence the same content
`c` read there, and the same buffer state; in particular for the input "A",
whose content is both times "Malware 'A' bol úspešne nasadený!". -/
theorem runSimulation_twice (p t : List Byte) (m : Module) :
    (∃ r m1 c, runSimulation (p ++ 0 :: t) m = some (r, m1) ∧
        runSimulation (p ++ 0 :: t) m1 = some (r, m1) ∧ readCString r = some c) ∧
    (∃ r m1, runSimulation (utf8 "A" ++ [0]) m = some (r, m1) ∧
        runSimulation (utf8 "A" ++ [0]) m1 = some (r, m1) ∧
        readCString r = some (utf8 "Malware 'A' bol úspešne nasadený!")) := by
  have hp : ∀ b ∈ p.takeWhile (· != 0), b ≠ 0 := by
    intro b hb
    simpa using List.mem_takeWhile_imp hb
  refine ⟨⟨_, _, _, runSimulation_append_nul p t m, runSimulation_append_nul p t _,
    readCString_c_str _ (message_nulfree _ hp)⟩, ?_⟩
  have hA : utf8 "A" ++ [0] = ([0x41] : List Byte) ++ 0 :: [] := by decide
  refine ⟨c_str (prefixBytes ++ [0x41] ++ suffixBytes),
    ⟨prefixBytes ++ [0x41] ++ suffixBytes⟩, ?_, ?_, ?_⟩
  · rw [hA]; exact runSimulation_nulfree [0x41] [] m (by decide)
  · rw [hA]; exact runSimulation_nulfree [0x41] [] _ (by decide)
  · rw [readCString_c_str _ (message_nulfree [0x41] (by decide))]
    decide

/-- C4: single-slot, last-write-wins buffer. Starting from the empty buffer
of module load, after the calls on any earlier inputs followed by the call on a
NUL-free input `sn`, the buffer holds exactly the message for `sn` (the state
a single call on `sn` leaves from the empty buffer, so nothing of the earlier
messages remains), and the content read at the pointer returned by the last
call equals the buffer content. -/
theorem runCalls_last_write_wins (earlier : List (List Byte)) (sn : List Byte)
    (h : ∀ b ∈ sn, b ≠ 0) :
    runCalls ((earlier ++ [sn]).map (· ++ [0])) Module.init
        = some ⟨prefixBytes ++ sn ++ suffixBytes⟩ ∧
    runCalls ([sn].map (· ++ [0])) Module.init = some ⟨prefixBytes ++ sn ++ suffixBytes⟩ ∧
    ∃ m r, runCalls (earlier.map (· ++ [0])) Module.init = some m ∧
      runSimulation (sn ++ [0]) m = some (r, ⟨prefixBytes ++ sn ++ suffixBytes⟩) ∧
      readCString r = some (prefixBytes ++ sn ++ suffixBytes) := by
  obtain ⟨m, hm⟩ := runCalls_terminated earlier Module.init
  have hlast : ∀ m0 : Module, runCalls ([sn].map (· ++ [0])) m0
      = some ⟨prefixBytes ++ sn ++ suffixBytes⟩ := by
    intro m0
    simp only [List.map_cons, List.map_nil, runCalls, runSimulation_nulfree sn [] m0 h]
  refine ⟨?_, hlast _, m, c_str (prefixBytes ++ sn ++ suffixBytes), hm, ?_, ?_⟩
  · rw [List.map_append, runCalls_append, hm, Option.some_bind, hlast]
  · exact runSimulation_nulfree sn [] m h
  · exact readCString_c_str _ (message_nulfree sn h)

theorem runCalls_last_write_wins_witness :
    (∀ b ∈ [0x43], b ≠ (0 : Byte)) ∧
    (runCalls ((([[0x41], [0x42, 0x42]] : List (List Byte)) ++ [[0x43]]).map (· ++ [0]))
        Module.init
        = some ⟨prefixBytes ++ [0x43] ++ suffixBytes⟩ ∧
    runCalls (([[0x43]] : List (List Byte)).map (· ++ [0])) Module.init
        = some ⟨prefixBytes ++ [0x43] ++ suffixBytes⟩ ∧
    ∃ m r, runCalls (([[0x41], [0x42, 0x42]] : List (List Byte)).map (· ++ [0])) Module.init
        = some m ∧
      runSimulation ([0x43] ++ [0]) m = some (r, ⟨prefixBytes ++ [0x43] ++ suffixBytes⟩) ∧
      readCString r = some (prefixBytes ++ [0x43] ++ suffixBytes)) :=
  ⟨by decide, runCalls_last_write_wins [[0x41], [0x42, 0x42]] [0x43] (by decide)⟩

/-- C5: for every NUL-free input `s`, the call returns; the result is the 9
prefix bytes, then `s`, then the 26 suffix bytes, hence `s.length + 35` bytes
long; it holds no NUL byte; the bytes at the returned pointer are the result
followed by one NUL, so `strlen` there is `s.length + 35` and the result reads
back in full as a NUL-terminated string. Quote characters are not special. -/
theorem runSimulation_length (s t : List Byte) (m : Module) (h : ∀ b ∈ s, b ≠ 0) :
    ∃ r m', runSimulation (s ++ 0 :: t) m = some (r, m') ∧
      m'.result = prefixBytes ++ s ++ suffixBytes ∧
      prefixBytes.length = 9 ∧ suffixBytes.length = 26 ∧
      m'.result.length = s.length + 35 ∧
      (∀ b ∈ m'.result, b ≠ 0) ∧
      r = m'.result ++ [0] ∧
      strlen r = some (s.length + 35) ∧
      readCString r = some m'.result := by
  have hlen : (prefixBytes ++ s ++ suffixBytes).length = s.length + 35 := by
    have h9 : prefixBytes.length = 9 := by decide
    have h26 : suffixBytes.length = 26 := by decide
    simp only [List.length_append, h9, h26]
    omega
  have hfree := message_nulfree s h
  refine ⟨_, _, runSimulation_nulfree s t m h, rfl, by decide, by decide, hlen, hfree, rfl, ?_,
    readCString_c_str _ hfree⟩
  rw [c_str, strlen_append_nul, takeWhile_nulfree _ hfree, hlen]

theorem runSimulation_length_witness :
    (∀ b ∈ [0x27, 0x22, 0x5c], b ≠ (0 : Byte)) ∧
    ∃ r m', runSimulation ([0x27, 0x22, 0x5c] ++ 0 :: [0x7a]) Module.init = some (r, m') ∧
      m'.result = prefixBytes ++ [0x27, 0x22, 0x5c] ++ suffixBytes ∧
      prefixBytes.length = 9 ∧ suffixBytes.length = 26 ∧
      m'.result.length = [(0x27 : Byte), 0x22, 0x5c].length + 35 ∧
      (∀ b ∈ m'.result, b ≠ 0) ∧
      r = m'.result ++ [0] ∧
      strlen r = some ([(0x27 : Byte), 0x22, 0x5c].length + 35) ∧
      readCString r = some m'.result :=
  ⟨by decide, runSimulation_length [0x27, 0x22, 0x5c] [0x7a] Module.init (by decide)⟩

/-- C6, as stated, fails: the length-bounded input `A`, NUL, `B` (followed in
memory by a terminator) is not substituted verbatim. The result buffer holds
the message for `A` alone, which differs from the prefix, the three input
bytes and the suffix. -/
theorem runSimulation_embedded_nul_not_verbatim :
    runSimulation ([0x41, 0, 0x42] ++ 0 :: []) Module.init
        = some (c_str (prefixBytes ++ [0x41] ++ suffixBytes),
            ⟨prefixBytes ++ [0x41] ++ suffixBytes⟩) ∧
    (runSimulation ([0x41, 0, 0x42] ++ 0 :: []) Module.init).map (fun r => r.2.result)
        ≠ some (prefixBytes ++ [0x41, 0, 0x42] ++ suffixBytes) := by
  decide

/-- C6, amended: for every input byte sequence without a zero byte (empty,
arbitrary non-zero byte values, malformed UTF-8, quote characters), the call
returns and the output bytes, in the buffer and at the returned pointer, are
the prefix bytes, then exactly the input bytes, then the suffix bytes. -/
theorem runSimulation_verbatim (s t : List Byte) (m : Module) (h : ∀ b ∈ s, b ≠ 0) :
    (runSimulation (s ++ 0 :: t) m).map (fun r => (r.1, r.2.result))
      = some (prefixBytes ++ s ++ suffixBytes ++ [0], prefixBytes ++ s ++ suffixBytes) := by
  rw [runSimulation_nulfree s t m h]
  rfl

theorem runSimulation_verbatim_witness :
    (∀ b ∈ [0xff, 0x27, 0xc3, 0x22, 0x80], b ≠ (0 : Byte)) ∧
    (runSimulation ([0xff, 0x27, 0xc3, 0x22, 0x80] ++ 0 :: []) Module.init).map
        (fun r => (r.1, r.2.result))
      = some (prefixBytes ++ [0xff, 0x27, 0xc3, 0x22, 0x80] ++ suffixBytes ++ [0],
          prefixBytes ++ [0xff, 0x27, 0xc3, 0x22, 0x80] ++ suffixBytes) :=
  ⟨by decide, runSimulation_verbatim [0xff, 0x27, 0xc3, 0x22, 0x80] [] Module.init (by decide)⟩

/-- C8: `main` returns the success code 0 and leaves the result buffer as it
was. -/
theorem main_returns_zero (m : Module) : (main m).1 = 0 ∧ (main m).2 = m :=
  ⟨rfl, rfl⟩

/-- C9: truncation at the first NUL. For every zero-free `p` and every tail
`t`, the call on the memory `p`, NUL, `t` returns exactly what the call on
`p`, NUL returns: the message for `p`. The bytes of `t` do not reach the
result. -/
theorem runSimulation_truncates (p t : List Byte) (m : Module) (h : ∀ b ∈ p, b ≠ 0) :
    runSimulation (p ++ [0] ++ t) m = runSimulation (p ++ [0]) m ∧
    runSimulation (p ++ [0] ++ t) m
      = some (c_str (prefixBytes ++ p ++ suffixBytes), ⟨prefixBytes ++ p ++ suffixBytes⟩) := by
  have h1 : runSimulation (p ++ [0] ++ t) m
      = some (c_str (prefixBytes ++ p ++ suffixBytes), ⟨prefixBytes ++ p ++ suffixBytes⟩) := by
    rw [List.append_assoc]
    exact runSimulation_nulfree p t m h
  exact ⟨h1.trans (runSimulation_nulfree p [] m h).symm, h1⟩

theorem runSimulation_truncates_witness :
    (∀ b ∈ [0x41], b ≠ (0 : Byte)) ∧
    (runSimulation ([0x41] ++ [0] ++ [0x42, 0x43, 0]) Module.init
        = runSimulation ([0x41] ++ [0]) Module.init ∧
    runSimulation ([0x41] ++ [0] ++ [0x42, 0x43, 0]) Module.init
      = some (c_str (prefixBytes ++ [0x41] ++ suffixBytes),
          ⟨prefixBytes ++ [0x41] ++ suffixBytes⟩)) :=
  ⟨by decide, runSimulation_truncates [0x41] [0x42, 0x43, 0] Module.init (by decide)⟩

/-- C10: injectivity on content. If the calls on two NUL-free inputs `a` and
`b` return equal content then `a = b`; and stripping the fixed prefix and
suffix from the content returned for `a` gives back `a`. -/
theorem runSimulation_injective (a b ta tb : List Byte) (ma mb : Module)
    (ha : ∀ x ∈ a, x ≠ 0) (hb : ∀ x ∈ b, x ≠ 0)
    (heq : (runSimulation (a ++ 0 :: ta) ma).bind (fun r => readCString r.1)
      = (runSimulation (b ++ 0 :: tb) mb).bind (fun r => readCString r.1)) :
    a = b ∧
    ((runSimulation (a ++ 0 :: ta) ma).bind (fun r => readCString r.1)).map stripAffixes
      = some a := by
  have hca : (runSimulation (a ++ 0 :: ta) ma).bind (fun r => readCString r.1)
      = some (prefixBytes ++ a ++ suffixBytes) := by
    rw [runSimulation_nulfree a ta ma ha, Option.some_bind,
      readCString_c_str _ (message_nulfree a ha)]
  have hcb : (runSimulation (b ++ 0 :: tb) mb).bind (fun r => readCString r.1)
      = some (prefixBytes ++ b ++ suffixBytes) := by
    rw [runSimulation_nulfree b tb mb hb, Option.some_bind,
      readCString_c_str _ (message_nulfree b hb)]
  rw [hca, hcb, Option.some.injEq] at heq
  refine ⟨?_, by rw [hca, Option.map_some', stripAffixes_message]⟩
  have h2 := congrArg stripAffixes heq
  rwa [stripAffixes_message, stripAffixes_message] at h2

theorem runSimulation_injective_witness :
    ((∀ x ∈ [0x41, 0x42], x ≠ (0 : Byte)) ∧ (∀ x ∈ [0x41, 0x42], x ≠ (0 : Byte)) ∧
      (runSimulation ([0x41, 0x42] ++ 0 :: [0x01]) Module.init).bind (fun r => readCString r.1)
        = (runSimulation ([0x41, 0x42] ++ 0 :: []) ⟨[0x07]⟩).bind (fun r => readCString r.1)) ∧
    ([(0x41 : Byte), 0x42] = [0x41, 0x42] ∧
      ((runSimulation ([0x41, 0x42] ++ 0 :: [0x01]) Module.init).bind
          (fun r => readCString r.1)).map stripAffixes
        = some [0x41, 0x42]) :=
  ⟨⟨by decide, by decide, by decide⟩,
    runSimulation_injective [0x41, 0x42] [0x41, 0x42] [0x01] [] Module.init ⟨[0x07]⟩
      (by decide) (by decide) (by decide)⟩

end Elitez
